import Mathlib

/-!
# A verification of the `html-go` content and tag packages

This file embeds the core of the repository in Lean 4 and proves (or
refutes) the specification's claims about it.

Layout:
* `HtmlGo` — the `html` package: `Content` values (`HTML`, `Text`, `Group`,
  `Func`), the escaping routine `AppendText`, `Append` and `Static`.
* `TagGo` — the `tag` package of functional options (`Attr`, `ID`, `Class`,
  `Content`, `Text`, `Static`, `Apply`) over the value view of a tag.
* `SliceGo` — a Go slice model (backing arrays with capacity, shared through
  a store) used to study aliasing between tags stamped out by `tag.Factory`.
* `SelGo` — the selector-parsing tag builder, which is exercised by
  `tag/tag_test.go` but whose implementation is not among the sources at
  hand; it is modelled from the specification.

Bytes are modelled as `List Char`; every byte the claims exercise is ASCII,
and the Go code walks `[]byte(text)` of UTF-8 strings byte by byte, so a
character list is a faithful value-level view of the buffers.
-/

namespace HtmlGo

/-- The per-iteration effect of the `switch` in `AppendText`
(src/html.go): the entity characters appended for one input byte. -/
def entityChars (ch : Char) : List Char :=
  if ch = '<' then ['&', 'l', 't', ';']
  else if ch = '>' then ['&', 'g', 't', ';']
  else if ch = '"' then ['&', 'q', 'u', 'o', 't', ';']
  else if ch = '\'' then ['&', 'a', 'p', 'o', 's', ';']
  else if ch = '&' then ['&', 'a', 'm', 'p', ';']
  else [ch]

/-- `AppendText` from src/html.go: loop over the text, appending either an
entity or the byte itself to the buffer. -/
def AppendText (buf : List Char) (text : List Char) : List Char :=
  text.foldl (fun b ch => b ++ entityChars ch) buf

/-- The `html.Content` interface together with the concrete variants the
sources provide: `HTML` (static bytes), `Text` (escaping text), `Group`
(a slice of content) and `Func` (deferred content, from the html package
document embedded in src/dataview/dataview.go lines 354-358). -/
inductive Content where
  | html : List Char → Content
  | text : List Char → Content
  | group : List Content → Content
  | func : (Unit → Content) → Content

mutual

/-- `AppendHTML` of each `Content` variant:
`HTML` appends its bytes, `Text` escapes via `AppendText`, `Group` appends
each element in order, `Func` calls the producer and appends its result. -/
def Content.appendHTML : Content → List Char → List Char
  | .html s, buf => buf ++ s
  | .text s, buf => AppendText buf s
  | .group cs, buf => Content.appendList cs buf
  | .func f, buf => Content.appendHTML (f ()) buf

/-- The loop body shared by `Group.AppendHTML` and `html.Append`:
append each element of a content slice in order. -/
def Content.appendList : List Content → List Char → List Char
  | [], buf => buf
  | c :: cs, buf => Content.appendList cs (Content.appendHTML c buf)

end

/-- `html.Append` (src/html.go): fold `AppendHTML` over the elements. -/
def Append (buf : List Char) (elements : List Content) : List Char :=
  Content.appendList elements buf

/-- `html.Static` (src/html.go): render the elements into a fresh buffer
(the Go code allocates `make([]byte, 0, 1024)`, a zero-length buffer; the
capacity hint has no value-level effect) and wrap the bytes as `HTML`. -/
def Static (elements : List Content) : Content :=
  .html (Append [] elements)

mutual

/-- `AppendHTML` instrumented with a counter of `Func` producer
invocations: identical recursion to `Content.appendHTML`, additionally
returning how many times a deferred producer was called during the pass. -/
def Content.appendHTMLCount : Content → List Char → List Char × Nat
  | .html s, buf => (buf ++ s, 0)
  | .text s, buf => (AppendText buf s, 0)
  | .group cs, buf => Content.appendListCount cs buf
  | .func f, buf =>
    let r := Content.appendHTMLCount (f ()) buf
    (r.1, r.2 + 1)

/-- Instrumented form of `Content.appendList`; counts are summed. -/
def Content.appendListCount : List Content → List Char → List Char × Nat
  | [], buf => (buf, 0)
  | c :: cs, buf =>
    let r := Content.appendHTMLCount c buf
    let r2 := Content.appendListCount cs r.1
    (r2.1, r.2 + r2.2)

end

end HtmlGo

namespace TagGo

/-- `strings.Join(classes, " ")` as used by `tag.Class` (src/tag/tag.go). -/
def joinSpace (classes : List (List Char)) : List Char :=
  List.intercalate [' '] classes

/-- The value view of `html.Tag` as used by the tag package
(src/tag/tag.go): a name, a slice of attributes and a slice of content. -/
structure PTag where
  name : List Char
  attrs : List (List Char × List Char)
  content : List HtmlGo.Content

/-- `tag.Attr` (src/tag/tag.go): append one attribute to the tag. -/
def Attr (name value : List Char) : PTag → PTag :=
  fun t => { t with attrs := t.attrs ++ [(name, value)] }

/-- `tag.ID` (src/tag/tag.go): append an `id` attribute. -/
def ID (value : List Char) : PTag → PTag :=
  Attr "id".toList value

/-- `tag.Class` (src/tag/tag.go): append a `class` attribute holding the
space-joined class names. -/
def Class (classes : List (List Char)) : PTag → PTag :=
  Attr "class".toList (joinSpace classes)

/-- `tag.Content` (src/tag/tag.go): append content inside the tag. -/
def Content (contents : List HtmlGo.Content) : PTag → PTag :=
  fun t => { t with content := t.content ++ contents }

/-- `tag.Text` (src/tag/tag.go): append escaping text content. -/
def Text (text : List Char) : PTag → PTag :=
  Content [.text text]

/-- `tag.Static` (src/tag/tag.go): render the contents once, then append
the static result as content. -/
def Static (contents : List HtmlGo.Content) : PTag → PTag :=
  Content [HtmlGo.Static contents]

/-- `tag.Apply` (src/tag/tag.go): apply a series of options in order. -/
def Apply (options : List (PTag → PTag)) : PTag → PTag :=
  fun t => options.foldl (fun acc o => o acc) t

/-- `tag.New` (src/tag/tag.go): start from a named tag with empty
attribute and content slices and apply the options in order. -/
def New (name : List Char) (options : List (PTag → PTag)) : PTag :=
  Apply options ⟨name, [], []⟩

/-- The closed language of options the tag package exports, used to
quantify over "any sequence of options": `Attr`, `ID`, `Class`, `Content`,
`Text`, `Static` and `Apply`. -/
inductive TagOption where
  | attr : List Char → List Char → TagOption
  | id : List Char → TagOption
  | cls : List (List Char) → TagOption
  | content : List HtmlGo.Content → TagOption
  | text : List Char → TagOption
  | static : List HtmlGo.Content → TagOption
  | apply : List TagOption → TagOption

mutual

/-- Interpretation of one `TagOption` by the corresponding combinator of
src/tag/tag.go. -/
def applyOption : TagOption → PTag → PTag
  | .attr n v, t => Attr n v t
  | .id v, t => ID v t
  | .cls names, t => Class names t
  | .content cs, t => Content cs t
  | .text s, t => Text s t
  | .static cs, t => Static cs t
  | .apply opts, t => applyOptions opts t

/-- Apply a list of options in order, as `New`, `Factory` and `Apply` do. -/
def applyOptions : List TagOption → PTag → PTag
  | [], t => t
  | o :: os, t => applyOptions os (applyOption o t)

end

/-- `tag.New` over the option language. -/
def pNew (name : List Char) (options : List TagOption) : PTag :=
  applyOptions options ⟨name, [], []⟩

mutual

/-- The attribute entries a `TagOption` appends, in order: one per `Attr`,
`ID` or `Class` option (flattening `Apply`). -/
def optAttrPairs : TagOption → List (List Char × List Char)
  | .attr n v => [(n, v)]
  | .id v => [("id".toList, v)]
  | .cls names => [("class".toList, joinSpace names)]
  | .content _ => []
  | .text _ => []
  | .static _ => []
  | .apply opts => optsAttrPairs opts

/-- Attribute entries appended by a list of options, in order. -/
def optsAttrPairs : List TagOption → List (List Char × List Char)
  | [] => []
  | o :: os => optAttrPairs o ++ optsAttrPairs os

end

end TagGo

namespace SliceGo

/-- A Go backing array: the written elements and the allocation capacity. -/
structure GoArray (α : Type) where
  data : List α
  cap : Nat

/-- A heap of backing arrays; a slice refers to one by index. -/
abbrev Store (α : Type) : Type := List (GoArray α)

/-- A Go slice header: backing array index and length.  (The offset is
always zero in the tag package, which never re-slices.) -/
structure GoSlice where
  arr : Nat
  len : Nat

/-- Capacity growth of Go's `growslice` for the small slices at hand:
double the capacity, or jump straight to the needed length when doubling
is not enough.  (Go additionally rounds the capacity up to a size class;
for the 16-byte elements used here that rounding is the identity at the
sizes this file evaluates.) -/
def growCap (oldCap need : Nat) : Nat :=
  if 2 * oldCap < need then need else 2 * oldCap

/-- Go `append(s, items...)`: if the backing array has spare capacity the
items are written in place after the first `s.len` elements — visible to
every other slice sharing the array — otherwise a fresh array is
allocated holding the first `s.len` elements followed by the items. -/
def goAppend {α : Type} (st : Store α) (s : GoSlice) (items : List α) :
    Store α × GoSlice :=
  let a := st.getD s.arr ⟨[], 0⟩
  let need := s.len + items.length
  if need ≤ a.cap then
    (st.set s.arr ⟨a.data.take s.len ++ items ++ a.data.drop need, a.cap⟩,
     ⟨s.arr, need⟩)
  else
    (st ++ [⟨a.data.take s.len ++ items, growCap a.cap need⟩],
     ⟨st.length, need⟩)

/-- The elements a slice denotes: the first `s.len` elements of its
backing array. -/
def readSlice {α : Type} (st : Store α) (s : GoSlice) : List α :=
  (st.getD s.arr ⟨[], 0⟩).data.take s.len

/-- `html.Tag` as a pair of slice headers plus the name. -/
structure MTag where
  name : List Char
  attrs : GoSlice
  content : GoSlice

/-- The two heaps backing all tags: one for attribute slices, one for
content slices. -/
structure MState where
  attrArrays : Store (List Char × List Char)
  contentArrays : Store HtmlGo.Content

/-- The initial heap: index 0 is the empty, zero-capacity array every nil
slice refers to. -/
def initState : MState :=
  ⟨[⟨[], 0⟩], [⟨[], 0⟩]⟩

/-- A Go nil slice: length 0 over the zero-capacity array. -/
def nilSlice : GoSlice := ⟨0, 0⟩

/-- `tag.Attr` under the slice model: `append(tag.Attrs, Attr{name, value})`. -/
def mAttr (n v : List Char) : MTag × MState → MTag × MState :=
  fun x =>
    let r := goAppend x.2.attrArrays x.1.attrs [(n, v)]
    ({ x.1 with attrs := r.2 }, { x.2 with attrArrays := r.1 })

/-- `tag.Content` under the slice model: `append(tag.Content, contents...)`. -/
def mContent (cs : List HtmlGo.Content) : MTag × MState → MTag × MState :=
  fun x =>
    let r := goAppend x.2.contentArrays x.1.content cs
    ({ x.1 with content := r.2 }, { x.2 with contentArrays := r.1 })

mutual

/-- Interpretation of one `TagOption` under the slice model, matching the
combinators of src/tag/tag.go. -/
def applyMOption : TagGo.TagOption → MTag × MState → MTag × MState
  | .attr n v, x => mAttr n v x
  | .id v, x => mAttr "id".toList v x
  | .cls names, x => mAttr "class".toList (TagGo.joinSpace names) x
  | .content cs, x => mContent cs x
  | .text s, x => mContent [.text s] x
  | .static cs, x => mContent [HtmlGo.Static cs] x
  | .apply opts, x => applyMOptions opts x

/-- Apply a list of options in order under the slice model. -/
def applyMOptions : List TagGo.TagOption → MTag × MState → MTag × MState
  | [], x => x
  | o :: os, x => applyMOptions os (applyMOption o x)

end

/-- `tag.Factory(name, options...)` builds the base template tag by
applying the options to a fresh tag, exactly as `New` does. -/
def mFactory (name : List Char) (options : List TagGo.TagOption) :
    MTag × MState :=
  applyMOptions options (⟨name, nilSlice, nilSlice⟩, initState)

/-- One invocation of the function returned by `Factory`: copy the base
tag's struct (`tag := base` — the slice headers are copied, the backing
arrays are shared) and apply the per-call options. -/
def mFactoryCall (base : MTag) (st : MState) (options : List TagGo.TagOption) :
    MTag × MState :=
  applyMOptions options (base, st)

/-- Modelled from the spec: serialization of an `html.Tag`, whose
`AppendHTML` method is not among the sources at hand (src/html.go keeps
only a commented-out draft of it).  Per the specification's serialization
contract: `<` + name + attributes as ` name='value'` + `>` + the content
in order + `</` + name + `>`. -/
def mTagHTML (st : MState) (t : MTag) : List Char :=
  ['<'] ++ t.name
    ++ (readSlice st.attrArrays t.attrs).flatMap
        (fun p => [' '] ++ p.1 ++ ['=', '\''] ++ p.2 ++ ['\''])
    ++ ['>']
    ++ HtmlGo.Append [] (readSlice st.contentArrays t.content)
    ++ ['<', '/'] ++ t.name ++ ['>']

/-- The failing scenario for the copy-on-write claim: a factory whose base
template holds three content items (capacity 4 after Go's doubling), then
two invocations each appending one content item. -/
def aliasBase : MTag × MState :=
  mFactory "div".toList
    [.content [.html ['a']], .content [.html ['b']], .content [.html ['c']]]

/-- First invocation of the factory: appends `x` as content. -/
def aliasCall1 : MTag × MState :=
  mFactoryCall aliasBase.1 aliasBase.2 [.content [.html ['x']]]

/-- Second invocation of the factory: appends `y` as content. -/
def aliasCall2 : MTag × MState :=
  mFactoryCall aliasBase.1 aliasCall1.2 [.content [.html ['y']]]

end SliceGo

namespace SelGo

/-- Modelled from the spec: the attribute/class-value escaping applied at
mutation time (`Set`, and bracket values captured by the selector parser),
which replaces only the ampersand and the apostrophe. -/
def valueEntityChars (ch : Char) : List Char :=
  if ch = '&' then ['&', 'a', 'm', 'p', ';']
  else if ch = '\'' then ['&', 'a', 'p', 'o', 's', ';']
  else [ch]

/-- Modelled from the spec: value escaping over a whole string. -/
def escapeValue (s : List Char) : List Char :=
  s.flatMap valueEntityChars

/-- An auxiliary bound used for the scanner's termination. -/
theorem lenDropWhileLe (p : Char → Bool) (l : List Char) :
    (l.dropWhile p).length ≤ l.length := by
  induction l with
  | nil => simp
  | cons a l ih =>
    by_cases h : p a
    · simp [List.dropWhile_cons, h]; omega
    · simp [List.dropWhile_cons, h]

/-- Modelled from the spec: the token scan of the selector parser, run
after the leading name has been removed.  `#id` runs to the next `.` or
`[`; `.class` runs to the next `.`, `#` or `[`; `[...]` runs to the next
`]` and is a fatal error (`none`) when no `]` follows; a bracket token
with no name is ignored; a bracket token without `=` is a value-less
attribute; the portion after `=` is value-escaped and stored; the last
`#id` wins; any other character is absorbed.  Returns the id, the classes
in encounter order and the bracket attributes. -/
def scanSel : List Char →
    Option (Option (List Char) × List (List Char) ×
      List (List Char × Option (List Char)))
  | [] => some (none, [], [])
  | '#' :: rest =>
    let tok := rest.takeWhile (fun c => c ≠ '.' && c ≠ '[')
    match scanSel (rest.dropWhile (fun c => c ≠ '.' && c ≠ '[')) with
    | none => none
    | some (i, cls, ats) => some (some (i.getD tok), cls, ats)
  | '.' :: rest =>
    let tok := rest.takeWhile (fun c => c ≠ '.' && c ≠ '#' && c ≠ '[')
    match scanSel (rest.dropWhile (fun c => c ≠ '.' && c ≠ '#' && c ≠ '[')) with
    | none => none
    | some (i, cls, ats) => some (i, tok :: cls, ats)
  | '[' :: rest =>
    let inside := rest.takeWhile (fun c => c ≠ ']')
    if (rest.dropWhile (fun c => c ≠ ']')).length = 0 then none
    else
      match scanSel ((rest.dropWhile (fun c => c ≠ ']')).tail) with
      | none => none
      | some (i, cls, ats) =>
        let nm := inside.takeWhile (fun c => c ≠ '=')
        if nm = [] then some (i, cls, ats)
        else if nm = inside then some (i, cls, (nm, none) :: ats)
        else
          some (i, cls,
            (nm, some (escapeValue ((inside.dropWhile (fun c => c ≠ '=')).tail)))
              :: ats)
  | _ :: rest => scanSel rest
termination_by l => l.length
decreasing_by
  · exact Nat.lt_succ_of_le (lenDropWhileLe _ _)
  · exact Nat.lt_succ_of_le (lenDropWhileLe _ _)
  · have h1 := lenDropWhileLe (fun c => decide (c ≠ ']')) rest
    have h2 := List.length_tail (rest.dropWhile (fun c => decide (c ≠ ']')))
    simp at *
    omega
  · simp [List.length_cons]

/-- A character that does not end the selector's leading name. -/
def notDelim (c : Char) : Bool :=
  c ≠ '#' && c ≠ '.' && c ≠ '['

/-- Modelled from the spec: `Parse(selector)`.  The leading run up to the
first `#`, `.` or `[` is the name (`div` when empty); the rest is token
scanned.  `none` is the single fatal case: a bracket token with no
closing `]`. -/
def parseSelector (s : List Char) :
    Option (List Char × Option (List Char) × List (List Char) ×
      List (List Char × Option (List Char))) :=
  let nm := s.takeWhile notDelim
  match scanSel (s.dropWhile notDelim) with
  | none => none
  | some (i, cls, ats) =>
    some (if nm = [] then "div".toList else nm, i, cls, ats)

/-- The condition the claim isolates, stated independently of the parser:
scanning left to right, some `[` opens a bracket token that no later `]`
closes. -/
def unterminated : List Char → Bool
  | [] => false
  | '[' :: rest =>
    if (rest.dropWhile (fun c => c ≠ ']')).length = 0 then true
    else unterminated ((rest.dropWhile (fun c => c ≠ ']')).tail)
  | _ :: rest => unterminated rest
termination_by l => l.length
decreasing_by
  · have h1 := lenDropWhileLe (fun c => decide (c ≠ ']')) rest
    have h2 := List.length_tail (rest.dropWhile (fun c => decide (c ≠ ']')))
    simp at *
    omega
  · simp [List.length_cons]

/-- The fixed HTML5 void-element set. -/
def voidElements : List (List Char) :=
  ["area", "base", "br", "col", "embed", "hr", "img", "input", "keygen",
   "link", "meta", "param", "source", "track", "wbr"].map String.toList

/-- Whether a tag name denotes a void element. -/
def isVoid (name : List Char) : Bool :=
  voidElements.contains name

/-- Modelled from the spec: the selector-built tag — name, accumulated
classes, attributes (a value-less pair is a boolean attribute) and
content. -/
structure STag where
  name : List Char
  classes : List (List Char)
  attrs : List (List Char × Option (List Char))
  content : List HtmlGo.Content

/-- Modelled from the spec: render-time markup escaping (applied to class
names), replacing `<`, `>` and `&` by entities. -/
def markupEntityChars (ch : Char) : List Char :=
  if ch = '<' then ['&', 'l', 't', ';']
  else if ch = '>' then ['&', 'g', 't', ';']
  else if ch = '&' then ['&', 'a', 'm', 'p', ';']
  else [ch]

/-- Render-time markup escaping over a whole string. -/
def escapeMarkup (s : List Char) : List Char :=
  s.flatMap markupEntityChars

/-- The ` class='...'` fragment: nothing when no classes, otherwise the
escaped class names joined by single spaces inside single quotes. -/
def renderClasses (classes : List (List Char)) : List Char :=
  if classes = [] then []
  else
    [' '] ++ "class".toList ++ ['=', '\'']
      ++ List.intercalate [' '] (classes.map escapeMarkup) ++ ['\'']

/-- One attribute: a space, the stored name, and `='value'` when the
attribute has a value (the value was escaped when captured). -/
def renderAttr (p : List Char × Option (List Char)) : List Char :=
  [' '] ++ p.1 ++
    (match p.2 with
     | some v => ['=', '\''] ++ v ++ ['\'']
     | none => [])

/-- Modelled from the spec: serialization of a selector-built tag —
`<` + name + class attribute + attributes + `>`, then, unless the element
is void (in which case serialization stops at the `>`), the content in
order and `</` + name + `>`. -/
def sTagHTML (t : STag) : List Char :=
  ['<'] ++ t.name ++ renderClasses t.classes ++ t.attrs.flatMap renderAttr
    ++ ['>']
    ++ (if isVoid t.name then []
        else HtmlGo.Append [] t.content ++ ['<', '/'] ++ t.name ++ ['>'])

/-- Modelled from the spec: `New(selector, content...)` — parse the
selector, place the id (when present) in the reserved first attribute
slot, keep the classes and bracket attributes, and append the supplied
content.  Fails exactly when the parse fails. -/
def sNew (selector : List Char) (content : List HtmlGo.Content) :
    Option STag :=
  match parseSelector selector with
  | none => none
  | some (nm, i, cls, ats) =>
    some ⟨nm, cls,
      (match i with
       | some v => [("id".toList, some v)]
       | none => []) ++ ats,
      content⟩

/-- Modelled from the spec: `Add(content...)` — a copy with the content
appended after the existing content. -/
def sAdd (t : STag) (cs : List HtmlGo.Content) : STag :=
  { t with content := t.content ++ cs }

/-- Modelled from the spec: `Text(...)` — wrap as escaping text content
and delegate to `Add`. -/
def sText (t : STag) (s : List Char) : STag :=
  sAdd t [.text s]

end SelGo

namespace HtmlGo

/-- Escaping a text starting from a split buffer splits the result. -/
theorem appendText_split (s a b : List Char) :
    AppendText (a ++ b) s = a ++ AppendText b s := by
  induction s generalizing b with
  | nil => simp [AppendText]
  | cons c cs ih =>
    simp only [AppendText, List.foldl_cons] at *
    rw [List.append_assoc]
    exact ih (b ++ entityChars c)

/-- Escaping appends to the buffer: the buffer is a prefix of the result. -/
theorem appendText_append (buf s : List Char) :
    AppendText buf s = buf ++ AppendText [] s := by
  have h := appendText_split s buf []
  simpa using h

/-- The escape loop concatenates the per-byte entity expansions. -/
theorem appendText_flatMap (buf s : List Char) :
    AppendText buf s = buf ++ s.flatMap entityChars := by
  induction s generalizing buf with
  | nil => simp [AppendText]
  | cons c cs ih =>
    simp only [AppendText, List.foldl_cons] at *
    rw [ih (buf ++ entityChars c)]
    simp

mutual

/-- Serialization only appends: the result is the buffer followed by the
serialization into an empty buffer. -/
theorem appendHTML_eq (c : Content) (buf : List Char) :
    Content.appendHTML c buf = buf ++ Content.appendHTML c [] := by
  cases c with
  | html s => rfl
  | text s =>
    show AppendText buf s = buf ++ AppendText [] s
    exact appendText_append buf s
  | group cs =>
    show Content.appendList cs buf = buf ++ Content.appendList cs []
    exact appendList_eq cs buf
  | func f =>
    show Content.appendHTML (f ()) buf = buf ++ Content.appendHTML (f ()) []
    exact appendHTML_eq (f ()) buf

/-- List form of `appendHTML_eq`. -/
theorem appendList_eq (cs : List Content) (buf : List Char) :
    Content.appendList cs buf = buf ++ Content.appendList cs [] := by
  cases cs with
  | nil => simp [Content.appendList]
  | cons c cs' =>
    show Content.appendList cs' (Content.appendHTML c buf) =
      buf ++ Content.appendList cs' (Content.appendHTML c [])
    rw [appendList_eq cs' (Content.appendHTML c buf), appendHTML_eq c buf,
        appendList_eq cs' (Content.appendHTML c [])]
    simp

end

mutual

/-- The instrumented serializer produces the same bytes. -/
theorem appendHTMLCount_fst (c : Content) (buf : List Char) :
    (Content.appendHTMLCount c buf).1 = Content.appendHTML c buf := by
  cases c with
  | html s => rfl
  | text s => rfl
  | group cs =>
    show (Content.appendListCount cs buf).1 = Content.appendList cs buf
    exact appendListCount_fst cs buf
  | func f =>
    show (Content.appendHTMLCount (f ()) buf).1 = Content.appendHTML (f ()) buf
    exact appendHTMLCount_fst (f ()) buf

/-- List form of `appendHTMLCount_fst`. -/
theorem appendListCount_fst (cs : List Content) (buf : List Char) :
    (Content.appendListCount cs buf).1 = Content.appendList cs buf := by
  cases cs with
  | nil => rfl
  | cons c cs' =>
    show (Content.appendListCount cs' (Content.appendHTMLCount c buf).1).1 =
      Content.appendList cs' (Content.appendHTML c buf)
    rw [appendHTMLCount_fst c buf]
    exact appendListCount_fst cs' (Content.appendHTML c buf)

end

mutual

/-- The number of producer invocations in a pass does not depend on the
buffer the pass serializes into. -/
theorem appendHTMLCount_snd (c : Content) (buf : List Char) :
    (Content.appendHTMLCount c buf).2 = (Content.appendHTMLCount c []).2 := by
  cases c with
  | html s => rfl
  | text s => rfl
  | group cs =>
    show (Content.appendListCount cs buf).2 = (Content.appendListCount cs []).2
    exact appendListCount_snd cs buf
  | func f =>
    show (Content.appendHTMLCount (f ()) buf).2 + 1 =
      (Content.appendHTMLCount (f ()) []).2 + 1
    rw [appendHTMLCount_snd (f ()) buf]

/-- List form of `appendHTMLCount_snd`. -/
theorem appendListCount_snd (cs : List Content) (buf : List Char) :
    (Content.appendListCount cs buf).2 = (Content.appendListCount cs []).2 := by
  cases cs with
  | nil => rfl
  | cons c cs' =>
    show (Content.appendHTMLCount c buf).2 +
        (Content.appendListCount cs' (Content.appendHTMLCount c buf).1).2 =
      (Content.appendHTMLCount c []).2 +
        (Content.appendListCount cs' (Content.appendHTMLCount c []).1).2
    rw [appendHTMLCount_snd c buf,
        appendListCount_snd cs' (Content.appendHTMLCount c buf).1,
        appendListCount_snd cs' (Content.appendHTMLCount c []).1]

end

/-- C3 — `Text` content escapes exactly the five characters `<`, `>`, `&`,
`"`, `'` to their entity forms and copies every other byte unchanged;
`New("a").Text("<script>")` renders `&lt;script&gt;` inside the element
body. -/
theorem text_escaping_five_entities (buf s : List Char) :
    AppendText buf s = buf ++ s.flatMap entityChars
    ∧ entityChars '<' = "&lt;".toList
    ∧ entityChars '>' = "&gt;".toList
    ∧ entityChars '&' = "&amp;".toList
    ∧ entityChars '"' = "&quot;".toList
    ∧ entityChars '\'' = "&apos;".toList
    ∧ (∀ c : Char, c ∈ ['<', '>', '&', '"', '\''] ∨ entityChars c = [c])
    ∧ Content.appendHTML (.text "<script>".toList) [] = "&lt;script&gt;".toList
    ∧ (SelGo.sNew "a".toList []).map
        (fun t => SelGo.sTagHTML (SelGo.sText t "<script>".toList))
        = some "<a>&lt;script&gt;</a>".toList := by
  refine ⟨appendText_flatMap buf s, by decide, by decide, by decide, by decide,
    by decide, ?_, by decide, ?_⟩
  · intro c
    by_cases h : c ∈ ['<', '>', '&', '"', '\'']
    · exact Or.inl h
    · right
      simp at h
      obtain ⟨h1, h2, h3, h4, h5⟩ := h
      simp [entityChars, h1, h2, h3, h4, h5]
  · simp [SelGo.sNew, SelGo.parseSelector, SelGo.scanSel, SelGo.notDelim,
      SelGo.sText, SelGo.sAdd, SelGo.sTagHTML, SelGo.renderClasses,
      SelGo.isVoid, SelGo.voidElements, Append, Content.appendList,
      Content.appendHTML, AppendText, entityChars]

/-- C2 counterexample — the claim says render-time text escaping leaves the
apostrophe (and the double quote) unchanged; the code escapes it. -/
theorem renderEscape_apos_counterexample :
    AppendText [] ['\''] = "&apos;".toList ∧ AppendText [] ['\''] ≠ ['\''] := by
  decide

/-- C2 (amended) — there are two distinct escaping profiles, but the
render-time text escaping replaces five characters (`<`, `>`, `&`, and
also `"` and `'`), while the mutation-time attribute/class-value escaping
replaces only `&` and `'`, leaving `<`, `>`, `"` unchanged. -/
theorem two_escaping_profiles (c : Char) :
    entityChars '\'' = "&apos;".toList
    ∧ entityChars '"' = "&quot;".toList
    ∧ SelGo.valueEntityChars '&' = "&amp;".toList
    ∧ SelGo.valueEntityChars '\'' = "&apos;".toList
    ∧ SelGo.valueEntityChars '<' = ['<']
    ∧ SelGo.valueEntityChars '>' = ['>']
    ∧ SelGo.valueEntityChars '"' = ['"']
    ∧ (c = '&' ∨ c = '\'' ∨ SelGo.valueEntityChars c = [c])
    ∧ SelGo.escapeValue "a'b&c".toList = "a&apos;b&amp;c".toList := by
  refine ⟨by decide, by decide, by decide, by decide, by decide, by decide,
    by decide, ?_, by decide⟩
  by_cases h1 : c = '&'
  · exact Or.inl h1
  by_cases h2 : c = '\''
  · exact Or.inr (Or.inl h2)
  · exact Or.inr (Or.inr (by simp [SelGo.valueEntityChars, h1, h2]))

/-- C9 — pre-rendering with `Static` is observationally equivalent to
direct serialization: `Static(es...).AppendHTML(buf)` equals
`Append(buf, es...)` for every buffer and element list. -/
theorem static_refines_append (es : List Content) (buf : List Char) :
    Content.appendHTML (Static es) buf = Append buf es := by
  show buf ++ Append [] es = Append buf es
  rw [Append, Append, appendList_eq es buf]

/-- C10 — serialization only appends: the first `len(buf)` bytes of
`AppendHTML(buf)` are exactly `buf`, for every content variant. -/
theorem appendHTML_preserves_buffer (c : Content) (buf : List Char) :
    (Content.appendHTML c buf).take buf.length = buf := by
  rw [appendHTML_eq]
  exact List.take_left buf _

/-- C8 — `Func` content serializes exactly as the content its producer
returns; the producer is invoked exactly once per serialization pass (one
more invocation than its result needs), and nothing is cached: a second
pass over the same value performs the same invocations again, regardless
of the buffer it starts from. -/
theorem func_deferred_invocation (f : Unit → Content) (buf : List Char) :
    Content.appendHTML (.func f) buf = Content.appendHTML (f ()) buf
    ∧ (Content.appendHTMLCount (.func f) buf).1 = Content.appendHTML (.func f) buf
    ∧ (Content.appendHTMLCount (.func f) buf).2
        = (Content.appendHTMLCount (f ()) buf).2 + 1
    ∧ (Content.appendHTMLCount (.func f) (Content.appendHTML (.func f) buf)).2
        = (Content.appendHTMLCount (.func f) buf).2 := by
  refine ⟨rfl, appendHTMLCount_fst _ buf, rfl, ?_⟩
  rw [appendHTMLCount_snd (.func f) (Content.appendHTML (.func f) buf),
      appendHTMLCount_snd (.func f) buf]

end HtmlGo

namespace TagGo

mutual

/-- Applying one option appends its attribute entries after the existing
ones and touches nothing before them. -/
theorem applyOption_attrs (o : TagOption) (t : PTag) :
    (applyOption o t).attrs = t.attrs ++ optAttrPairs o := by
  cases o with
  | attr n v => rfl
  | id v => rfl
  | cls names => rfl
  | content cs => simp [applyOption, Content, optAttrPairs]
  | text s => simp [applyOption, Text, Content, optAttrPairs]
  | static cs => simp [applyOption, Static, Content, optAttrPairs]
  | apply opts =>
    show (applyOptions opts t).attrs = t.attrs ++ optsAttrPairs opts
    exact applyOptions_attrs opts t

/-- List form of `applyOption_attrs`. -/
theorem applyOptions_attrs (os : List TagOption) (t : PTag) :
    (applyOptions os t).attrs = t.attrs ++ optsAttrPairs os := by
  cases os with
  | nil => simp [applyOptions, optsAttrPairs]
  | cons o os' =>
    show (applyOptions os' (applyOption o t)).attrs =
      t.attrs ++ (optAttrPairs o ++ optsAttrPairs os')
    rw [applyOptions_attrs os' (applyOption o t), applyOption_attrs o t]
    simp

end

/-- C4 counterexample — two `Attr` options with the same name leave two
entries with that name in the attribute list: the uniqueness invariant the
claim states does not hold for tags reachable through `New`. -/
theorem attr_names_duplicate_counterexample :
    ¬ ((pNew "div".toList
        [.attr "id".toList "a".toList, .attr "id".toList "b".toList]).attrs.map
          Prod.fst).Nodup := by
  decide

/-- C4 (amended) — the attribute list of a tag built by `New` (or a
factory) records one entry per applied `Attr`/`ID`/`Class` option, in
application order, so its names are pairwise distinct exactly when the
names of the applied options are. -/
theorem attr_names_in_application_order (name : List Char)
    (opts : List TagOption) :
    (pNew name opts).attrs.map Prod.fst = (optsAttrPairs opts).map Prod.fst
    ∧ (((pNew name opts).attrs.map Prod.fst).Nodup ↔
        ((optsAttrPairs opts).map Prod.fst).Nodup) := by
  have h : (pNew name opts).attrs = optsAttrPairs opts := by
    have h2 := applyOptions_attrs opts ⟨name, [], []⟩
    simpa [pNew] using h2
  rw [h]
  exact ⟨rfl, Iff.rfl⟩

/-- C5 counterexample — `Class("one")` stores a `class` entry directly in
the attribute list, contradicting the claim that no reachable tag carries
one. -/
theorem class_stored_as_attr_counterexample :
    ("class".toList, "one".toList) ∈
      (pNew "div".toList [.cls ["one".toList]]).attrs := by
  decide

/-- C5 (amended) — `Class` stores the space-joined class names as an
ordinary `class` attribute entry appended to the attribute list (there is
no separate class field and no serialization-time synthesis): the `class`
entries of a built tag are exactly those contributed by the applied
options. -/
theorem class_entries_from_options (name : List Char)
    (opts : List TagOption) (names : List (List Char)) (t : PTag) :
    (pNew name opts).attrs.filter (fun p => p.1 == "class".toList)
      = (optsAttrPairs opts).filter (fun p => p.1 == "class".toList)
    ∧ (Class names t).attrs = t.attrs ++ [("class".toList, joinSpace names)] := by
  constructor
  · have h : (pNew name opts).attrs = optsAttrPairs opts := by
      have h2 := applyOptions_attrs opts ⟨name, [], []⟩
      simpa [pNew] using h2
    rw [h]
  · rfl

end TagGo

namespace SliceGo

/-- C1 — evaluation of the aliasing scenario: after the first call the
first sibling serializes with its own `x`; the second call overwrites the
shared spare-capacity slot, and the same first sibling now serializes with
the second call's `y`.  The base template itself is unchanged throughout. -/
theorem factory_capacity_aliasing :
    mTagHTML aliasCall1.2 aliasCall1.1 = "<div>abcx</div>".toList
    ∧ mTagHTML aliasCall2.2 aliasCall1.1 = "<div>abcy</div>".toList
    ∧ mTagHTML aliasCall2.2 aliasCall1.1 ≠ mTagHTML aliasCall1.2 aliasCall1.1
    ∧ mTagHTML aliasCall1.2 aliasBase.1 = mTagHTML aliasBase.2 aliasBase.1
    ∧ mTagHTML aliasCall2.2 aliasBase.1 = mTagHTML aliasBase.2 aliasBase.1 := by
  refine ⟨by decide, by decide, by decide, by decide, by decide⟩

end SliceGo

namespace SelGo

theorem unterminated_cons_ne (c : Char) (rest : List Char) (h : c ≠ '[') :
    unterminated (c :: rest) = unterminated rest := by
  rw [unterminated.eq_def]
  split
  · rename_i heq
    cases heq
  · rename_i heq
    rw [List.cons.injEq] at heq
    exact absurd heq.1 h
  · rename_i heq
    rw [List.cons.injEq] at heq
    rw [heq.2]

theorem unterminated_bracket (rest : List Char) :
    unterminated ('[' :: rest) =
      if (rest.dropWhile (fun c => c ≠ ']')).length = 0 then true
      else unterminated ((rest.dropWhile (fun c => c ≠ ']')).tail) := by
  rw [unterminated.eq_def]
  split
  · rename_i heq
    cases heq
  · rename_i heq
    rw [List.cons.injEq] at heq
    rw [heq.2]
  · rename_i hne heq
    rw [List.cons.injEq] at heq
    exact absurd heq.1.symm hne

theorem unterminated_dropWhile (p : Char → Bool)
    (h : ∀ c, p c = true → c ≠ '[') (l : List Char) :
    unterminated (l.dropWhile p) = unterminated l := by
  induction l with
  | nil => rfl
  | cons a l ih =>
    rw [List.dropWhile_cons]
    by_cases hp : p a
    · simp only [hp, if_true]
      rw [ih, unterminated_cons_ne a l (h a hp)]
    · simp [hp]

theorem scanSome_unterm_false {rem : List Char}
    (ih : scanSel rem = none ↔ unterminated rem = true)
    {v : Option (List Char) × List (List Char) × List (List Char × Option (List Char))}
    (hsome : scanSel rem = some v) : unterminated rem = false := by
  cases hb : unterminated rem
  · rfl
  · exact absurd (ih.mpr hb) (by simp [hsome])

theorem scanSel_none_iff (s : List Char) :
    scanSel s = none ↔ unterminated s = true := by
  induction s using scanSel.induct with
  | case1 => simp [scanSel, unterminated]
  | case2 rest hnone ih =>
    have h2 := unterminated_dropWhile (fun c => decide (c ≠ '.') && decide (c ≠ '['))
      (by intro c hc; simp at hc; tauto) rest
    have h3 : unterminated ('#' :: rest) = true := by
      rw [unterminated_cons_ne _ _ (by decide), ← h2]
      exact ih.mp hnone
    have hval : scanSel ('#' :: rest) = none := by
      simp only [scanSel]
      rw [hnone]
    simp [hval, h3]
  | case3 rest i cls ats hsome ih =>
    have h2 := unterminated_dropWhile (fun c => decide (c ≠ '.') && decide (c ≠ '['))
      (by intro c hc; simp at hc; tauto) rest
    have h4 : unterminated ('#' :: rest) = false := by
      rw [unterminated_cons_ne _ _ (by decide), ← h2]
      exact scanSome_unterm_false ih hsome
    have hval : scanSel ('#' :: rest) = some (some (i.getD
        (rest.takeWhile (fun c => decide (c ≠ '.') && decide (c ≠ '[')))), cls, ats) := by
      simp only [scanSel]
      rw [hsome]
    simp [hval, h4]
  | case4 rest hnone ih =>
    have h2 := unterminated_dropWhile (fun c => decide (c ≠ '.') && decide (c ≠ '#') && decide (c ≠ '['))
      (by intro c hc; simp at hc; tauto) rest
    have h3 : unterminated ('.' :: rest) = true := by
      rw [unterminated_cons_ne _ _ (by decide), ← h2]
      exact ih.mp hnone
    have hval : scanSel ('.' :: rest) = none := by
      simp only [scanSel]
      rw [hnone]
    simp [hval, h3]
  | case5 rest i cls ats hsome ih =>
    have h2 := unterminated_dropWhile (fun c => decide (c ≠ '.') && decide (c ≠ '#') && decide (c ≠ '['))
      (by intro c hc; simp at hc; tauto) rest
    have h4 : unterminated ('.' :: rest) = false := by
      rw [unterminated_cons_ne _ _ (by decide), ← h2]
      exact scanSome_unterm_false ih hsome
    have hval : scanSel ('.' :: rest) = some (i,
        rest.takeWhile (fun c => decide (c ≠ '.') && decide (c ≠ '#') && decide (c ≠ '[')) :: cls, ats) := by
      simp only [scanSel]
      rw [hsome]
    simp [hval, h4]
  | case6 rest hlen =>
    have h5 : unterminated ('[' :: rest) = true := by
      rw [unterminated_bracket]
      simp only [hlen, if_true]
    have hval : scanSel ('[' :: rest) = none := by
      simp only [scanSel]
      rw [if_pos hlen]
    simp [hval, h5]
  | case7 rest hlen hnone ih =>
    have h5 : unterminated ('[' :: rest) = true := by
      rw [unterminated_bracket]
      rw [if_neg hlen]
      exact ih.mp hnone
    have hval : scanSel ('[' :: rest) = none := by
      simp only [scanSel]
      rw [if_neg hlen, hnone]
    simp [hval, h5]
  | case8 rest inside hlen i cls ats hsome nm hnm ih =>
    have h5 : unterminated ('[' :: rest) = false := by
      rw [unterminated_bracket]
      rw [if_neg hlen]
      exact scanSome_unterm_false ih hsome
    rw [h5]
    simp only [Bool.false_eq_true, iff_false]
    simp only [scanSel]
    rw [if_neg hlen, hsome]
    split
    · rename_i heq
      exact Option.noConfusion heq
    · split <;> simp
  | case9 rest inside hlen i cls ats hsome nm hnm hni ih =>
    have h5 : unterminated ('[' :: rest) = false := by
      rw [unterminated_bracket]
      rw [if_neg hlen]
      exact scanSome_unterm_false ih hsome
    rw [h5]
    simp only [Bool.false_eq_true, iff_false]
    simp only [scanSel]
    rw [if_neg hlen, hsome]
    split
    · rename_i heq
      exact Option.noConfusion heq
    · split <;> simp
  | case10 rest inside hlen i cls ats hsome nm hnm hni ih =>
    have h5 : unterminated ('[' :: rest) = false := by
      rw [unterminated_bracket]
      rw [if_neg hlen]
      exact scanSome_unterm_false ih hsome
    rw [h5]
    simp only [Bool.false_eq_true, iff_false]
    simp only [scanSel]
    rw [if_neg hlen, hsome]
    split
    · rename_i heq
      exact Option.noConfusion heq
    · split <;> simp
  | case11 head rest hh hd hb ih =>
    have h1 : unterminated (head :: rest) = unterminated rest :=
      unterminated_cons_ne _ _ hb
    have hs : scanSel (head :: rest) = scanSel rest := by
      rw [scanSel.eq_def]
      split
      · rename_i heq
        cases heq
      · rename_i heq
        rw [List.cons.injEq] at heq
        exact absurd heq.1 hh
      · rename_i heq
        rw [List.cons.injEq] at heq
        exact absurd heq.1 hd
      · rename_i heq
        rw [List.cons.injEq] at heq
        exact absurd heq.1 hb
      · rename_i heq
        rw [List.cons.injEq] at heq
        rw [heq.2]
    rw [hs, h1]
    exact ih

/-- `parseSelector` fails exactly when the token scan fails. -/
theorem parseSelector_none_iff (s : List Char) :
    parseSelector s = none ↔ scanSel (s.dropWhile notDelim) = none := by
  unfold parseSelector
  cases h : scanSel (s.dropWhile notDelim) with
  | none => simp [h]
  | some v =>
    obtain ⟨i, cls, ats⟩ := v
    simp [h]

/-- C6 — selector parsing is total except for one fatal case:
`New("div[id")` fails, and in general parsing fails exactly on a selector
containing a bracket token with no closing `]`; every other selector is
parsed without failure. -/
theorem parse_total_except_unterminated_bracket :
    parseSelector "div[id".toList = none
    ∧ sNew "div[id".toList [] = none
    ∧ ∀ s : List Char, (parseSelector s = none ↔ unterminated s = true) := by
  refine ⟨by simp [parseSelector, scanSel, notDelim], ?_, ?_⟩
  · have h : parseSelector "div[id".toList = none := by
      simp [parseSelector, scanSel, notDelim]
    simp only [sNew]
    rw [h]
  · intro s
    have hd : unterminated (s.dropWhile notDelim) = unterminated s :=
      unterminated_dropWhile notDelim (by intro c hc; simp [notDelim] at hc; tauto) s
    rw [parseSelector_none_iff, scanSel_none_iff, hd]

/-- C7 — void elements serialize as the opening tag only: no closing tag
and no content, whatever content has been added; in particular `New("br")`
serializes to `<br>` regardless of any content added. -/
theorem void_serializes_opening_only (t : STag) (extra : List HtmlGo.Content)
    (h : isVoid t.name = true) :
    sTagHTML (sAdd t extra) = sTagHTML t
    ∧ sTagHTML t
        = ['<'] ++ t.name ++ renderClasses t.classes
          ++ t.attrs.flatMap renderAttr ++ ['>']
    ∧ (sNew "br".toList []).map (fun u => sTagHTML (sAdd u extra))
        = some "<br>".toList := by
  refine ⟨?_, ?_, ?_⟩
  · simp [sTagHTML, sAdd, h]
  · simp [sTagHTML, h]
  · have hbr : sNew "br".toList [] = some ⟨"br".toList, [], [], []⟩ := by
      simp [sNew, parseSelector, scanSel, notDelim]
    rw [hbr]
    simp [sTagHTML, sAdd, isVoid, voidElements, renderClasses]

/-- Witness for `void_serializes_opening_only` at the `br` element with one
content item. -/
theorem void_serializes_opening_only_witness :
    sTagHTML (sAdd ⟨"br".toList, [], [], []⟩ [.html ['z']])
      = sTagHTML ⟨"br".toList, [], [], []⟩ :=
  (void_serializes_opening_only ⟨"br".toList, [], [], []⟩ [.html ['z']]
    (by decide)).1

end SelGo
